import Mathlib

/-!
# Verification of the email-extraction pipeline (`extract_email.py`)

Shallow embedding of the `EmailExtractor` class. Strings are modelled as
`List Char` (`Str`). The two external collaborators are abstracted:

* HTML parsing (BeautifulSoup/lxml): a parsed page is a `Doc` — the visible
  text (`soup.get_text()`) plus the flat list of the document's elements in
  document order (what `soup.find_all` traverses). Theorems quantify over an
  arbitrary `parse : Str → Doc` function, which covers every markup input.
* Python's `set` of matched strings: `list(emails)` enumerates the set in an
  unspecified (hash-dependent, randomised) order. This is modelled by an
  `order : List Str → List Str` oracle; the legitimate orders are exactly
  those with `(order l).Perm (pyDedup l)`, since the contents of the set are
  the distinct raw matches.

Everything else — the regex scanner for `EMAIL_PATTERN` (including Python's
backtracking semantics for greedy `+`/`{2,}` and the `$`-before-final-newline
quirk of `re.match`), the cleaning/validation/deduplication pass, the
priority ranking, `urlparse(...).netloc` and `str.replace`/`strip`/`rstrip`/
`split` — is embedded directly from the source. Case mapping is modelled on
the basic-latin range (the only characters the email pattern admits).
-/

namespace CompanyEmail

/-- Strings, modelled as lists of characters. -/
abbrev Str := List Char

/-- Convenience literal coercion. -/
def str (s : String) : Str := s.toList

/-! ## Character classes of `EMAIL_PATTERN = [a-zA-Z0-9._%+-]+@[a-zA-Z0-9.-]+\.[a-zA-Z]{2,}` -/

/-- The local-part character class `[a-zA-Z0-9._%+-]`. -/
def isLocalChar (c : Char) : Bool :=
  c.isAlphanum || c = '.' || c = '_' || c = '%' || c = '+' || c = '-'

/-- The domain character class `[a-zA-Z0-9.-]`. -/
def isDomChar (c : Char) : Bool :=
  c.isAlphanum || c = '.' || c = '-'

/-- The whitespace characters stripped by Python's `str.strip()`
(restricted to the ASCII range). -/
def isPyWS (c : Char) : Bool :=
  c = ' ' || c = '\t' || c = '\n' || c = '\r' || c = '\x0b' || c = '\x0c'

/-! ## Basic character lemmas -/

theorem toNat_ofNat_valid (n : Nat) (h : n.isValidChar) : (Char.ofNat n).toNat = n := by
  unfold Char.ofNat
  rw [dif_pos h]
  unfold Char.ofNatAux
  simp [Char.toNat, UInt32.toNat, BitVec.toNat_ofNatLt]

theorem toLower_toNat (c : Char) :
    (Char.toLower c).toNat = if 65 ≤ c.toNat ∧ c.toNat ≤ 90 then c.toNat + 32 else c.toNat := by
  unfold Char.toLower
  split
  · next h =>
    rw [if_pos (by exact ⟨h.1, h.2⟩)]
    exact toNat_ofNat_valid _ (Or.inl (by omega))
  · next h => rw [if_neg h]

theorem char_eq_iff_toNat (c d : Char) : c = d ↔ c.toNat = d.toNat := by
  constructor
  · rintro rfl; rfl
  · intro h
    apply Char.eq_of_val_eq
    apply UInt32.eq_of_toBitVec_eq
    apply BitVec.eq_of_toNat_eq
    exact h

theorem isUpper_iff (c : Char) : c.isUpper = true ↔ 65 ≤ c.toNat ∧ c.toNat ≤ 90 := by
  simp [Char.isUpper, UInt32.le_def, BitVec.le_def, Char.toNat, UInt32.toNat]

theorem isLower_iff (c : Char) : c.isLower = true ↔ 97 ≤ c.toNat ∧ c.toNat ≤ 122 := by
  simp [Char.isLower, UInt32.le_def, BitVec.le_def, Char.toNat, UInt32.toNat]

theorem isDigit_iff (c : Char) : c.isDigit = true ↔ 48 ≤ c.toNat ∧ c.toNat ≤ 57 := by
  simp [Char.isDigit, UInt32.le_def, BitVec.le_def, Char.toNat, UInt32.toNat]

theorem toLower_idem (c : Char) : c.toLower.toLower = c.toLower := by
  rw [char_eq_iff_toNat, toLower_toNat, toLower_toNat]
  by_cases h : 65 ≤ c.toNat ∧ c.toNat ≤ 90 <;> simp [h] <;> omega

theorem toLower_alpha (c : Char) (h : c.isAlpha = true) : c.toLower.isAlpha = true := by
  simp only [Char.isAlpha, Bool.or_eq_true, isUpper_iff, isLower_iff] at *
  rw [toLower_toNat]
  split <;> omega

theorem pyWS_cases (c : Char) (h : isPyWS c = true) :
    c = ' ' ∨ c = '\t' ∨ c = '\n' ∨ c = '\r' ∨ c = '\x0b' ∨ c = '\x0c' := by
  simp only [isPyWS, Bool.or_eq_true, decide_eq_true_eq] at h
  tauto

theorem toLower_eq_self_of_not_upper (c : Char) (h : c.isUpper = false) : c.toLower = c := by
  rw [char_eq_iff_toNat, toLower_toNat]
  rw [show (c.isUpper = false) ↔ ¬ (c.isUpper = true) by simp, isUpper_iff] at h
  split <;> omega

theorem toLower_isLower_of_upper (c : Char) (h : c.isUpper = true) : c.toLower.isLower = true := by
  rw [isUpper_iff] at h
  rw [isLower_iff, toLower_toNat, if_pos h]
  omega

/-- No character of the email pattern's classes is whitespace. -/
theorem localChar_not_ws (c : Char) (h : isLocalChar c = true) : isPyWS c = false := by
  by_contra hw
  have hw' : isPyWS c = true := by revert hw; cases isPyWS c <;> simp
  rcases pyWS_cases c hw' with rfl | rfl | rfl | rfl | rfl | rfl <;> exact absurd h (by decide)

theorem domChar_not_ws (c : Char) (h : isDomChar c = true) : isPyWS c = false := by
  by_contra hw
  have hw' : isPyWS c = true := by revert hw; cases isPyWS c <;> simp
  rcases pyWS_cases c hw' with rfl | rfl | rfl | rfl | rfl | rfl <;> exact absurd h (by decide)

theorem localChar_ne_at (c : Char) (h : isLocalChar c = true) : c ≠ '@' := by
  rintro rfl; exact absurd h (by decide)

/-- Lower-casing keeps a character inside the local-part class. -/
theorem toLower_localChar (c : Char) (h : isLocalChar c = true) :
    isLocalChar c.toLower = true := by
  by_cases hu : c.isUpper = true
  · have := toLower_isLower_of_upper c hu
    simp [isLocalChar, Char.isAlphanum, Char.isAlpha, this]
  · rw [toLower_eq_self_of_not_upper c (by revert hu; cases c.isUpper <;> simp)]
    exact h

theorem toLower_domChar (c : Char) (h : isDomChar c = true) :
    isDomChar c.toLower = true := by
  by_cases hu : c.isUpper = true
  · have := toLower_isLower_of_upper c hu
    simp [isDomChar, Char.isAlphanum, Char.isAlpha, this]
  · rw [toLower_eq_self_of_not_upper c (by revert hu; cases c.isUpper <;> simp)]
    exact h

/-- The characters `rstrip`ped by `_clean_emails` (`.,;:!?`). -/
def rstripChars : Str := ['.', ',', ';', ':', '!', '?']

theorem alpha_not_rstripChar (c : Char) (h : c.isAlpha = true) : c ∉ rstripChars := by
  intro hm
  rcases hm with _ | ⟨_, _ | ⟨_, _ | ⟨_, _ | ⟨_, _ | ⟨_, _ | ⟨_, h0⟩⟩⟩⟩⟩⟩ <;>
    first
      | exact absurd h (by decide)
      | exact absurd h0 (by intro hx; cases hx)

theorem toLower_at : Char.toLower '@' = '@' := by decide

/-! ## Python string primitives -/

/-- `s.lower()` (basic-latin case mapping, the only range the pattern admits). -/
def pyLower (l : Str) : Str := l.map Char.toLower

/-- `s.strip()`: drop whitespace from both ends. -/
def pyStrip (l : Str) : Str :=
  ((l.dropWhile isPyWS).reverse.dropWhile isPyWS).reverse

/-- `s.rstrip('.,;:!?')`: drop those characters from the right end. -/
def pyRstrip (l : Str) : Str :=
  (l.reverse.dropWhile (fun c => decide (c ∈ rstripChars))).reverse

/-- `email.lower().strip().rstrip('.,;:!?')` — the normalisation applied to each
raw candidate at the top of `_clean_emails` (lines 117–120). -/
def normalizeEmail (e : Str) : Str := pyRstrip (pyStrip (pyLower e))

/-- Python `s.split(sep)` for a single-character separator (keeps empty parts;
`"".split(sep) == [""]`). -/
def pySplit (sep : Char) : Str → List Str
  | [] => [[]]
  | c :: rest =>
    if c = sep then [] :: pySplit sep rest
    else
      match pySplit sep rest with
      | h :: t => (c :: h) :: t
      | [] => [[c]]

/-- First-occurrence deduplication: the *contents* of Python's
`set()` of raw matches, in first-discovery order. `list(set(...))` is any
permutation of this. -/
def pyDedupAux : List Str → List Str → List Str
  | [], _ => []
  | x :: xs, seen => if x ∈ seen then pyDedupAux xs seen else x :: pyDedupAux xs (x :: seen)

def pyDedup (l : List Str) : List Str := pyDedupAux l []

/-- `s.replace('www.', '')`: removes every leftmost non-overlapping occurrence
of the substring `www.` (not only a leading one). -/
def stripWwwAll : Str → Str
  | 'w' :: 'w' :: 'w' :: '.' :: rest => stripWwwAll rest
  | c :: rest => c :: stripWwwAll rest
  | [] => []

/-- `s.replace('mailto:', '')`: removes every occurrence of `mailto:`. -/
def stripMailtoAll : Str → Str
  | 'm' :: 'a' :: 'i' :: 'l' :: 't' :: 'o' :: ':' :: rest => stripMailtoAll rest
  | c :: rest => c :: stripMailtoAll rest
  | [] => []

/-- Python `s.split('www.')` (split on the four-character substring). -/
def splitWww : Str → List Str
  | 'w' :: 'w' :: 'w' :: '.' :: rest => [] :: splitWww rest
  | c :: rest =>
    match splitWww rest with
    | h :: t => (c :: h) :: t
    | [] => [[c]]
  | [] => [[]]

example : pySplit '.' (str "a.b.") = [str "a", str "b", str ""] := by decide

example : stripWwwAll (str "mail.www.example.com") = str "mail.example.com" := by decide

example : stripWwwAll (str "wwwww.x") = str "wwx" := by decide

example : splitWww (str "awww.b") = [str "a", str "b"] := by decide

example : normalizeEmail (str " A@B.Co;; ") = str "a@b.co" := by decide

example : pyDedup [str "a", str "b", str "a"] = [str "a", str "b"] := by decide

theorem splitWww_ne_nil (l : Str) : splitWww l ≠ [] := by
  induction l using splitWww.induct with
  | case1 rest ih => simp [splitWww]
  | case2 c rest hne h1 t hm => rw [splitWww.eq_2 c rest hne, hm]; simp
  | case3 c rest hne hm ih => exact absurd hm ih
  | case4 => simp [splitWww]

/-- `s.replace('www.','')` agrees with split-on-`'www.'`-and-concatenate. -/
theorem stripWwwAll_eq_flatten_splitWww (l : Str) :
    stripWwwAll l = (splitWww l).flatten := by
  induction l using stripWwwAll.induct with
  | case1 rest ih => simp [stripWwwAll, splitWww, ih]
  | case2 c rest hne ih =>
    rw [stripWwwAll.eq_2 c rest hne, splitWww.eq_2 c rest hne, ih]
    rcases h : splitWww rest with _ | ⟨h1, t⟩
    · exact absurd h (splitWww_ne_nil rest)
    · simp [h]
  | case3 => rfl

/-! ## The regex scanner: `EMAIL_PATTERN.findall`

Python's backtracking engine on `[a-zA-Z0-9._%+-]+@[a-zA-Z0-9.-]+\.[a-zA-Z]{2,}`
at a given start position is deterministic:

* the greedy local run must end exactly at an `@` (`@` is outside the class,
  so shortening the run cannot help);
* after `@`, the engine consumes `m` domain characters (largest `m` first)
  and then needs a literal `.` followed by at least two letters; the winning
  `m` is the largest position of a `.` inside the domain run (the character
  just past the run is not a `.`), with `m ≥ 1`, whose following maximal
  letter run has length ≥ 2 — and `{2,}` being greedy and final, the match
  ends after that letter run.

`findall` scans left to right, resuming after each (non-overlapping) match,
else advancing one character.
-/

/-- Backtracking search inside the (tail of the) maximal domain run: finds the
rightmost `.` followed by ≥ 2 letters, returning the domain-suffix the match
consumes (`D*`-prefix ++ `.` ++ letter run). -/
def domTail : Str → Option Str
  | [] => none
  | c :: rest =>
    match domTail rest with
    | some d => some (c :: d)
    | none =>
      if c = '.' then
        let letters := rest.takeWhile Char.isAlpha
        if 2 ≤ letters.length then some ('.' :: letters) else none
      else none

/-- Attempt to match `EMAIL_PATTERN` exactly at the start of `cs`. The `d0`
split enforces that the domain has at least one character before the dot. -/
def tryMatch (cs : Str) : Option Str :=
  let lrun := cs.takeWhile isLocalChar
  if lrun.isEmpty then none
  else
    match cs.drop lrun.length with
    | '@' :: rest2 =>
      (match rest2.takeWhile isDomChar with
       | [] => none
       | d0 :: drest =>
         match domTail drest with
         | some d => some (lrun ++ '@' :: d0 :: d)
         | none => none)
    | _ => none

/-- `findall` scan. A successful match is a contiguous prefix of the current
position (local run, `@`, head of the domain run, and a `domTail` piece that
only ever prepends the characters it walked over), so resuming at
`drop m.length` is resuming right after the match. Fuel `cs.length` always
suffices: each step consumes at least one character and one unit of fuel. -/
def scanAux : Nat → Str → List Str
  | 0, _ => []
  | _ + 1, [] => []
  | fuel + 1, c :: rest =>
    match tryMatch (c :: rest) with
    | some m => m :: scanAux fuel ((c :: rest).drop m.length)
    | none => scanAux fuel rest

/-- `EMAIL_PATTERN.findall(text)`. -/
def scanEmails (cs : Str) : List Str := scanAux cs.length cs

example : scanEmails (str "reach jane.doe@example.org for sales") =
    [str "jane.doe@example.org"] := by decide

example : scanEmails (str "not-an-email@@broken") = [] := by decide

example : scanEmails (str "INFO@Example.org") = [str "INFO@Example.org"] := by decide

example : scanEmails (str "a@b.co.") = [str "a@b.co"] := by decide

example : scanEmails (str "x a@b.c y") = [] := by decide

example : scanEmails (str "a..b@x..co t@u.vw") = [str "a..b@x..co", str "t@u.vw"] := by decide

example : scanEmails (str "..a@b.co..") = [str "..a@b.co"] := by decide

example : scanEmails (str "a@b.cO9x") = [str "a@b.cO"] := by decide

example : scanEmails (str "a@b..co") = [str "a@b..co"] := by decide

/-! ## Constant tables of `EmailExtractor` -/

/-- `PRIORITY_PREFIXES` (lines 22–25). -/
def PRIORITY_PREFIXES : List Str :=
  [str "contact", str "info", str "support", str "hello", str "sales",
   str "business", str "inquiry", str "general", str "help"]

/-- `EXCLUDE_PATTERNS` (lines 28–33). -/
def EXCLUDE_PATTERNS : List Str :=
  [str "example.com", str "test.com", str "domain.com", str "email.com",
   str "yourdomain.com", str "yoursite.com", str "sentry.io",
   str "wixpress.com", str "example@", str "test@", str "noreply",
   str "no-reply", str "donotreply", str "mailer-daemon"]

/-! ## Validation, deny-list, priority, domain relevance -/

/-- `any(pattern in email for pattern in self.EXCLUDE_PATTERNS)` (line 127):
Python's `in` on strings is substring containment. -/
def excludedEmail (e : Str) : Bool :=
  EXCLUDE_PATTERNS.any fun p => decide (p <:+: e)

/-- `re.match(r'^[a-zA-Z0-9._%+-]+$', local)` (line 164). Without
`re.MULTILINE`, `$` matches at the end of the string or just before a final
newline, so the regex accepts `X+` and `X+\n`. -/
def matchesLocalRe (l : Str) : Bool :=
  let core := if l.getLast? = some '\n' then l.dropLast else l
  !core.isEmpty && core.all isLocalChar

/-- `_is_valid_email` (lines 147–167). `split('@', 1)` cuts at the first `@`
(well-defined here because the count is exactly 1). -/
def isValidEmail (e : Str) : Bool :=
  if e.length < 5 then false
  else if e.count '@' ≠ 1 then false
  else
    let lpart := e.takeWhile (· ≠ '@')
    let domain := (e.dropWhile (· ≠ '@')).drop 1
    if lpart.isEmpty || domain.isEmpty then false
    else if '.' ∉ domain then false
    else matchesLocalRe lpart

/-- The priority test of `_prioritize_emails` (lines 209–214):
`local_part = email.split('@')[0].lower()` and then
`any(local_part.startswith(prefix) or local_part == prefix ...)`. -/
def isPriorityEmail (e : Str) : Bool :=
  let localPart := pyLower (e.takeWhile (· ≠ '@'))
  PRIORITY_PREFIXES.any fun p => p.isPrefixOf localPart || localPart = p

/-- `_prioritize_emails` (lines 196–222): one pass appending each email to the
priority or the other bucket, then priority bucket first — i.e. a stable
partition. -/
def prioritizeEmails (l : List Str) : List Str :=
  l.filter isPriorityEmail ++ l.filter fun e => !isPriorityEmail e

/-- `_is_domain_related` (lines 169–194). `self.base_domain` is falsy both
when it is `None` and when it is the empty string. `email.split('@')[1]`
raises `IndexError` when the address has no `@`; the surrounding
`try/except` turns that into `False`. `replace('www.','')` removes every
occurrence. `base_parts[-2:]` is guarded by the two length checks. -/
def isDomainRelated (bd : Option Str) (email : Str) : Bool :=
  match bd with
  | none => true
  | some base =>
    if base.isEmpty then true
    else
      match (pySplit '@' email).drop 1 with
      | [] => false
      | d :: _ =>
        let emailDomain := stripWwwAll d
        let baseParts := pySplit '.' base
        let emailParts := pySplit '.' emailDomain
        if emailDomain = base then true
        else if List.isSuffixOf ('.' :: base) emailDomain then true
        else if 2 ≤ baseParts.length ∧ 2 ≤ emailParts.length ∧
            baseParts.drop (baseParts.length - 2) = emailParts.drop (emailParts.length - 2)
          then true
        else false

/-! ## `_clean_emails` and the public pipeline -/

/-- The loop body of `_clean_emails` (lines 112–141): normalise, skip if seen,
skip if deny-listed, skip if structurally invalid; the domain-relevance
branch (lines 134–138) computes its condition and does nothing (`pass`) on
both sides, which the dead binding `_related` records. -/
def cleanEmailsAux (bd : Option Str) : List Str → List Str → List Str
  | [], _ => []
  | e :: rest, seen =>
    let e' := normalizeEmail e
    if e' ∈ seen then cleanEmailsAux bd rest seen
    else if excludedEmail e' then cleanEmailsAux bd rest seen
    else if !isValidEmail e' then cleanEmailsAux bd rest seen
    else
      let _related := isDomainRelated bd e'
      e' :: cleanEmailsAux bd rest (e' :: seen)

/-- `_clean_emails` (lines 102–145): the filtering loop followed by
`_prioritize_emails`. -/
def cleanEmails (bd : Option Str) (raw : List Str) : List Str :=
  prioritizeEmails (cleanEmailsAux bd raw [])

/-! ## The parsed-document abstraction for BeautifulSoup -/

/-- A BeautifulSoup attribute value: a string, or a list of strings for
multi-valued attributes such as `class` (which `isinstance(value, str)`
rejects). -/
inductive AttrVal where
  | s (v : Str)
  | many (vs : List Str)
deriving DecidableEq

/-- One element of the parsed document: its (parser-lowercased) tag name and
its attributes in document order. BeautifulSoup stores attributes in a dict,
so names are unique; `tag.get(name)` is then the value paired with `name`. -/
structure Elem where
  tag : Str
  attrs : List (Str × AttrVal)
deriving DecidableEq

/-- `tag.get(name)` as first-match lookup (coincides with the dict lookup
because names are unique). -/
def getAttr (t : Elem) (name : Str) : Option AttrVal :=
  (t.attrs.find? fun a => a.1 = name).map (·.2)

/-- A parsed page: `soup.get_text()` plus all elements in document order
(the list `soup.find_all` filters). -/
structure Doc where
  text : Str
  elems : List Elem

/-- The tag filter of `soup.find_all(['a', 'span', 'div', 'p'])` (line 72). -/
def isScannedTag (t : Elem) : Bool :=
  t.tag = str "a" || t.tag = str "span" || t.tag = str "div" || t.tag = str "p"

/-- The strings one element contributes to `email_attributes`
(lines 72–83): the `mailto:` href with every `mailto:` occurrence removed
and whitespace stripped, then every string-valued attribute whose name
contains `mail` (hence also `email`) that contains an `@`. -/
def elemEmailAttrs (t : Elem) : List Str :=
  (match getAttr t (str "href") with
   | some (.s h) =>
     if (str "mailto:").isPrefixOf h then [pyStrip (stripMailtoAll h)] else []
   | _ => []) ++
  t.attrs.filterMap fun a =>
    if decide (str "email" <:+: pyLower a.1) || decide (str "mail" <:+: pyLower a.1) then
      match a.2 with
      | .s v => if '@' ∈ v then some v else none
      | .many _ => none
    else none

/-- `email_attributes` (lines 71–83): only `a`, `span`, `div`, `p` elements
are visited. -/
def emailAttributesOf (elems : List Elem) : List Str :=
  elems.flatMap fun t => if isScannedTag t then elemEmailAttrs t else []

/-- All raw regex matches in first-discovery order: the text scan (line 89)
followed by the scan of each attribute-sourced string (lines 93–95).
`emails` in the source is the *set* of these. -/
def candidatesOf (doc : Doc) : List Str :=
  scanEmails doc.text ++ (emailAttributesOf doc.elems).flatMap scanEmails

/-- `extract_emails` (lines 51–100). `parse` abstracts BeautifulSoup
(any function, covering every markup input); `order` abstracts the iteration
order of `list(emails)` — faithful orders satisfy
`(order l).Perm (pyDedup l)`. `if not html_content` is true for `None` and
for the empty string. -/
def extractEmails (parse : Str → Doc) (order : List Str → List Str)
    (bd : Option Str) (html : Option Str) : List Str :=
  match html with
  | none => []
  | some s =>
    if s.isEmpty then []
    else cleanEmails bd (order (pyDedup (candidatesOf (parse s))))

/-! ### `urlparse(...).netloc` (CPython 3.11 `urllib.parse` / `ipaddress`)

`urlsplit` can *raise*: mismatched square brackets in the netloc give
`ValueError("Invalid IPv6 URL")`, and a matched bracket pair whose content is
not a valid IPv6/IPvFuture host fails `_check_bracketed_host`. The
constructor's `except Exception: pass` (lines 48–49) is therefore live, and
`base_domain` stays `None` on such URLs. `none` models the raise below. The
parsers are transliterated from `ipaddress._BaseV4`/`_BaseV6`. Out of the
model's (ASCII) scope is only `_checknetloc`'s NFKC-confusable check, which
can fire solely for netlocs containing non-ASCII characters. -/

/-- `scheme_chars` of `urllib.parse`. -/
def schemeChar (c : Char) : Bool :=
  c.isAlphanum || c = '+' || c = '-' || c = '.'

/-- `_WHATWG_C0_CONTROL_OR_SPACE`: the code points `0x00`–`0x20`. -/
def isC0ControlOrSpace (c : Char) : Bool := c.toNat ≤ 32

/-- `_UNSAFE_URL_BYTES_TO_REMOVE = ['\t', '\r', '\n']`. -/
def isUnsafeUrlByte (c : Char) : Bool := c = '\t' || c = '\r' || c = '\n'

/-- `urlsplit`'s preprocessing: `url.lstrip(_WHATWG_C0_CONTROL_OR_SPACE)`,
then removal of every tab/CR/newline. -/
def pyUrlPreprocess (u : Str) : Str :=
  (u.dropWhile isC0ControlOrSpace).filter fun c => !isUnsafeUrlByte c

/-- The digit string's value (callers have already checked the digits). -/
def decimalValue (s : Str) : Nat := s.foldl (fun n c => n * 10 + (c.toNat - 48)) 0

/-- `ipaddress._BaseV4._parse_octet`: non-empty, ASCII decimal digits only,
at most 3 of them, no leading zero (except `0` itself), value ≤ 255. -/
def isValidOctet (s : Str) : Bool :=
  !s.isEmpty && s.all Char.isDigit && decide (s.length ≤ 3) &&
  (s = ['0'] || s.headD '0' ≠ '0') && decide (decimalValue s ≤ 255)

/-- `ipaddress.IPv4Address.__init__` on a string: no `/`, then
`_ip_int_from_string` — exactly four dot-separated valid octets. -/
def isValidIPv4 (s : Str) : Bool :=
  !s.contains '/' && !s.isEmpty &&
  (match pySplit '.' s with
   | [a, b, c, d] => isValidOctet a && isValidOctet b && isValidOctet c && isValidOctet d
   | _ => false)

/-- The hex digits of `_parse_hextet`. -/
def isHexDigitChar (c : Char) : Bool :=
  c.isDigit || ('a' ≤ c && c ≤ 'f') || ('A' ≤ c && c ≤ 'F')

/-- `ipaddress._BaseV6._parse_hextet`: hex digits only, at most 4; the empty
string fails its `int('', 16)` conversion. -/
def isValidHextet (s : Str) : Bool :=
  s.all isHexDigitChar && decide (s.length ≤ 4) && !s.isEmpty

/-- `ipaddress._BaseV6._ip_int_from_string` as a validity predicate (the
numeric value is irrelevant to `urlsplit`'s error path). An IPv4-style last
part is popped and replaced by two `'%x'`-formatted parts; those are always
valid non-empty hextets, so the stand-ins `0`, `0` keep every later check
(count, interior/endpoint emptiness, hextet validity) identical. -/
def isValidIPv6NoZone (s : Str) : Bool :=
  if s.isEmpty then false
  else
    let parts0 := pySplit ':' s
    if parts0.length < 3 then false
    else
      match (if (parts0.getLast?.getD []).contains '.' then
               (if isValidIPv4 (parts0.getLast?.getD []) then
                  some (parts0.dropLast ++ [['0'], ['0']])
                else none)
             else some parts0) with
      | none => false
      | some parts =>
        if 9 < parts.length then false
        else
          let interior := (parts.drop 1).dropLast
          if 2 ≤ interior.countP List.isEmpty then false
          else if interior.countP List.isEmpty = 1 then
            let skipIdx := 1 + interior.findIdx List.isEmpty
            let partsHi0 := skipIdx
            let partsLo0 := parts.length - skipIdx - 1
            if (parts.headD ['x']).isEmpty ∧ partsHi0 ≠ 1 then false
            else if (parts.getLast?.getD ['x']).isEmpty ∧ partsLo0 ≠ 1 then false
            else
              let partsHi := if (parts.headD ['x']).isEmpty then partsHi0 - 1 else partsHi0
              let partsLo := if (parts.getLast?.getD ['x']).isEmpty then partsLo0 - 1 else partsLo0
              if partsHi + partsLo > 7 then false
              else
                (parts.take partsHi).all isValidHextet &&
                (parts.drop (parts.length - partsLo)).all isValidHextet
          else
            decide (parts.length = 8) && !(parts.headD []).isEmpty &&
            !(parts.getLast?.getD []).isEmpty && parts.all isValidHextet

/-- `ipaddress.IPv6Address.__init__` on a string: no `/`, an optional
`%scope` (non-empty, no further `%`) split off first, then the address
parse. -/
def isValidIPv6 (s : Str) : Bool :=
  !s.contains '/' &&
  (let addr := s.takeWhile (· ≠ '%')
   match s.drop addr.length with
   | [] => isValidIPv6NoZone s
   | _ :: scope => !scope.isEmpty && !scope.contains '%' && isValidIPv6NoZone addr)

/-- `urllib.parse._check_bracketed_host` (3.11): a host starting with `v`
must match `\Av[a-fA-F0-9]+\..+\Z` (greedy hex run, a literal dot, then at
least one character, none of which may be a newline); otherwise
`ipaddress.ip_address` must accept it and it must not be IPv4 (an IPv4
address in brackets raises). -/
def checkBracketedHost (hostname : Str) : Bool :=
  match hostname with
  | 'v' :: rest =>
    let hexRun := rest.takeWhile isHexDigitChar
    !hexRun.isEmpty &&
    (match rest.drop hexRun.length with
     | '.' :: after => !after.isEmpty && !after.contains '\n'
     | _ => false)
  | _ => !isValidIPv4 hostname && isValidIPv6 hostname

/-- `urlparse(url).netloc`, `none` modelling a raised `ValueError`: after
preprocessing, strip a valid `scheme:` prefix (first char alphabetic, all
scheme characters); if the remainder starts with `//` the netloc runs to the
next `/`, `?` or `#`; a netloc with exactly one of `[`/`]` raises, and a
matched pair has the text between the first `[` and the following `]`
checked as a bracketed host. Without `//` the netloc is empty. -/
def pyUrlNetloc (u0 : Str) : Option Str :=
  let u := pyUrlPreprocess u0
  let pre := u.takeWhile (· ≠ ':')
  let rest :=
    if pre.length < u.length ∧ pre ≠ [] ∧ (pre.headD ' ').isAlpha ∧ pre.all schemeChar then
      u.drop (pre.length + 1)
    else u
  if rest.take 2 = ['/', '/'] then
    let netloc := (rest.drop 2).takeWhile fun c => c ≠ '/' ∧ c ≠ '?' ∧ c ≠ '#'
    if ('[' ∈ netloc ∧ ']' ∉ netloc) ∨ (']' ∈ netloc ∧ '[' ∉ netloc) then none
    else if '[' ∈ netloc ∧ ']' ∈ netloc then
      let bracketed := ((netloc.dropWhile (· ≠ '[')).drop 1).takeWhile (· ≠ ']')
      if checkBracketedHost bracketed then some netloc else none
    else some netloc
  else some []

/-- `__init__` (lines 35–49): `base_domain` is `None` unless a truthy
`base_url` was given; then it is `urlparse(base_url).netloc` with every
occurrence of `www.` removed — unless `urlparse` raises, in which case the
`except Exception: pass` leaves it `None`. -/
def initBaseDomain (baseUrl : Option Str) : Option Str :=
  match baseUrl with
  | none => none
  | some u =>
    if u.isEmpty then none
    else
      match pyUrlNetloc u with
      | some netloc => some (stripWwwAll netloc)
      | none => none

example : pyUrlNetloc (str "http://mail.www.example.com/x") =
    some (str "mail.www.example.com") := by decide

example : pyUrlNetloc (str "http://[www.ex.co") = none := by decide

example : initBaseDomain (some (str "http://[www.ex.co")) = none := by decide

example : pyUrlNetloc (str "ht\tp://a.www.co/x") = some (str "a.www.co") := by decide

example : pyUrlNetloc (str "http://[::1]/x") = some (str "[::1]") := by decide

example : pyUrlNetloc (str "http://[a]b.co") = none := by decide

example : pyUrlNetloc (str "http://[1.2.3.4]") = none := by decide

example : pyUrlNetloc (str "http://[::ffff:1.2.3.4]/") = some (str "[::ffff:1.2.3.4]") := by
  decide

example : pyUrlNetloc (str "http://[fe80::1%25eth0]") = some (str "[fe80::1%25eth0]") := by
  decide

example : pyUrlNetloc (str "http://[v1f.future]") = some (str "[v1f.future]") := by decide

example : initBaseDomain (some (str "http://a.co")) = some (str "a.co") := by decide

example : cleanEmails none [str "test@test.com", str "noreply@acme.com"] = [] := by decide

example :
    extractEmails (fun s => ⟨s, []⟩) pyDedup none
      (some (str "reach test@test.com and noreply@acme.com")) = [] := by decide

example :
    extractEmails (fun s => ⟨s, []⟩) pyDedup none
      (some (str "reach jane.doe@acme.org for sales")) = [str "jane.doe@acme.org"] := by decide

example :
    extractEmails
      (fun s => ⟨s, [⟨str "a", [(str "href", .s (str "mailto:INFO@Acme.org"))]⟩]⟩)
      pyDedup none (some (str "reach jane.doe@acme.org for sales")) =
      [str "info@acme.org", str "jane.doe@acme.org"] := by decide

/-! ## Generic list lemmas -/

theorem dropWhile_eq_self_of_forall {p : Char → Bool} {l : Str}
    (h : ∀ c ∈ l, p c = false) : l.dropWhile p = l := by
  cases l with
  | nil => rfl
  | cons a t => rw [List.dropWhile_cons, h a (by simp)]; simp

theorem takeWhile_append_cons {p : Char → Bool} (l₁ : Str) (a : Char) (l₂ : Str)
    (h1 : ∀ x ∈ l₁, p x = true) (h2 : p a = false) :
    (l₁ ++ a :: l₂).takeWhile p = l₁ := by
  induction l₁ with
  | nil => simp [List.takeWhile_cons, h2]
  | cons b t ih =>
    simp only [List.cons_append, List.takeWhile_cons, h1 b (by simp)]
    rw [ih fun x hx => h1 x (by simp [hx])]
    simp

theorem dropWhile_append_cons {p : Char → Bool} (l₁ : Str) (a : Char) (l₂ : Str)
    (h1 : ∀ x ∈ l₁, p x = true) (h2 : p a = false) :
    (l₁ ++ a :: l₂).dropWhile p = a :: l₂ := by
  induction l₁ with
  | nil => simp [List.dropWhile_cons, h2]
  | cons b t ih =>
    simp only [List.cons_append, List.dropWhile_cons, h1 b (by simp)]
    exact ih fun x hx => h1 x (by simp [hx])

theorem map_eq_self_of_forall {f : Char → Char} {l : Str}
    (h : ∀ c ∈ l, f c = c) : l.map f = l := by
  induction l with
  | nil => rfl
  | cons a t ih => simp [h a (by simp), ih fun c hc => h c (by simp [hc])]

theorem getLast_exists {l : Str} (h : l ≠ []) : ∃ c, l.getLast? = some c := by
  rw [List.getLast?_eq_getLast l h]; exact ⟨_, rfl⟩

theorem getLast?_append_of_ne_nil (l₁ l₂ : Str) (h : l₂ ≠ []) :
    (l₁ ++ l₂).getLast? = l₂.getLast? := by
  rw [← List.head?_reverse, ← List.head?_reverse, List.reverse_append]
  cases hr : l₂.reverse with
  | nil => exact absurd (by simpa using hr) h
  | cons a t => simp

/-! ## Identity of `strip`/`rstrip` on whitespace-free / letter-terminated text -/

theorem pyStrip_eq_self {l : Str} (h : ∀ c ∈ l, isPyWS c = false) : pyStrip l = l := by
  unfold pyStrip
  rw [dropWhile_eq_self_of_forall h,
      dropWhile_eq_self_of_forall fun c hc => h c (by simpa using hc), List.reverse_reverse]

theorem pyRstrip_eq_self {l : Str} (h : ∀ c, l.getLast? = some c → c ∉ rstripChars) :
    pyRstrip l = l := by
  unfold pyRstrip
  cases hr : l.reverse with
  | nil =>
    have : l = [] := List.reverse_eq_nil_iff.mp hr
    subst this; rfl
  | cons a t =>
    have ha : l.getLast? = some a := by rw [← List.head?_reverse, hr]; rfl
    rw [List.dropWhile_cons, decide_eq_false (h a ha)]
    simp [← hr]

/-! ## Shape of the scanner's matches -/

/-- Every string `findall` returns decomposes as a non-empty local run, the
`@`, and a non-empty domain part of domain characters ending in a letter. -/
def EmailShape (m : Str) : Prop :=
  ∃ lp dp, m = lp ++ '@' :: dp ∧ lp ≠ [] ∧ (∀ c ∈ lp, isLocalChar c = true) ∧
    dp ≠ [] ∧ (∀ c ∈ dp, isDomChar c = true) ∧
    ∃ c, dp.getLast? = some c ∧ c.isAlpha = true


theorem domTail_subset {l d : Str} (h : domTail l = some d) : ∀ c ∈ d, c ∈ l := by
  induction l generalizing d with
  | nil => simp [domTail] at h
  | cons a rest ih =>
    rcases hm : domTail rest with _ | d'
    · simp only [domTail, hm] at h
      split at h
      · next ha =>
        split at h
        · next hlen =>
          injection h with h
          subst h
          intro c hc
          rcases List.mem_cons.mp hc with rfl | hc'
          · simp [ha]
          · exact List.mem_cons_of_mem _ ((List.takeWhile_sublist _).subset hc')
        · simp at h
      · simp at h
    · simp only [domTail, hm] at h
      injection h with h
      subst h
      intro c hc
      rcases List.mem_cons.mp hc with rfl | hc'
      · exact List.mem_cons_self _ _
      · exact List.mem_cons_of_mem _ (ih hm c hc')

theorem domTail_last_alpha {l d : Str} (h : domTail l = some d) :
    ∃ c, d.getLast? = some c ∧ c.isAlpha = true := by
  induction l generalizing d with
  | nil => simp [domTail] at h
  | cons a rest ih =>
    rcases hm : domTail rest with _ | d'
    · simp only [domTail, hm] at h
      split at h
      · next ha =>
        split at h
        · next hlen =>
          injection h with h
          subst h
          have hne : rest.takeWhile Char.isAlpha ≠ [] := by
            intro hx; rw [hx] at hlen; simp at hlen
          rcases getLast_exists hne with ⟨c, hc⟩
          refine ⟨c, ?_, List.mem_takeWhile_imp (List.mem_of_mem_getLast? hc)⟩
          rw [show ('.' :: rest.takeWhile Char.isAlpha : Str) =
                [('.' : Char)] ++ rest.takeWhile Char.isAlpha from rfl,
              getLast?_append_of_ne_nil _ _ hne]
          exact hc
        · simp at h
      · simp at h
    · simp only [domTail, hm] at h
      injection h with h
      subst h
      rcases ih hm with ⟨c, hc, hca⟩
      have hdne : d' ≠ [] := by rintro rfl; simp at hc
      refine ⟨c, ?_, hca⟩
      rw [show (a :: d' : Str) = [a] ++ d' from rfl, getLast?_append_of_ne_nil _ _ hdne]
      exact hc

theorem tryMatch_shape {cs m : Str} (h : tryMatch cs = some m) : EmailShape m := by
  simp only [tryMatch] at h
  split at h
  · simp at h
  · next hne =>
    split at h
    · next rest2 heq =>
      rcases hrun : rest2.takeWhile isDomChar with _ | ⟨d0, drest⟩
      · rw [hrun] at h; simp at h
      · simp only [hrun] at h
        rcases hdt : domTail drest with _ | d
        · rw [hdt] at h; simp at h
        · rw [hdt] at h
          injection h with h
          subst h
          have hdrun : ∀ c ∈ d0 :: drest, isDomChar c = true := by
            intro c hc; rw [← hrun] at hc; exact List.mem_takeWhile_imp hc
          refine ⟨cs.takeWhile isLocalChar, d0 :: d, rfl, by simpa using hne,
            fun c hc => List.mem_takeWhile_imp hc, by simp, ?_, ?_⟩
          · intro c hc
            rcases List.mem_cons.mp hc with rfl | hc'
            · exact hdrun c (by simp)
            · exact hdrun c (by simp [domTail_subset hdt c hc'])
          · rcases domTail_last_alpha hdt with ⟨c, hc, hca⟩
            have hdne : d ≠ [] := by rintro rfl; simp at hc
            refine ⟨c, ?_, hca⟩
            rw [show (d0 :: d : Str) = [d0] ++ d from rfl,
              getLast?_append_of_ne_nil _ _ hdne]
            exact hc
    · simp at h

theorem scanAux_shape {fuel : Nat} {cs : Str} {m : Str}
    (h : m ∈ scanAux fuel cs) : EmailShape m := by
  induction fuel generalizing cs with
  | zero => simp [scanAux] at h
  | succ fuel ih =>
    cases cs with
    | nil => simp [scanAux] at h
    | cons c rest =>
      rw [scanAux] at h
      rcases ht : tryMatch (c :: rest) with _ | m'
      · rw [ht] at h; exact ih h
      · rw [ht] at h
        rcases List.mem_cons.mp h with rfl | h'
        · exact tryMatch_shape ht
        · exact ih h'

theorem scanEmails_shape {cs m : Str} (h : m ∈ scanEmails cs) : EmailShape m :=
  scanAux_shape h

theorem candidatesOf_shape {doc : Doc} {e : Str} (h : e ∈ candidatesOf doc) :
    EmailShape e := by
  rcases List.mem_append.mp h with h' | h'
  · exact scanEmails_shape h'
  · rcases List.mem_flatMap.mp h' with ⟨a, _, hm⟩
    exact scanEmails_shape hm


/-! ## Normalisation lemmas -/

theorem mem_pyStrip_subset {l : Str} {c : Char} (h : c ∈ pyStrip l) : c ∈ l := by
  unfold pyStrip at h
  rw [List.mem_reverse] at h
  have h1 := (List.dropWhile_sublist _).subset h
  rw [List.mem_reverse] at h1
  exact (List.dropWhile_sublist _).subset h1

theorem mem_pyRstrip_subset {l : Str} {c : Char} (h : c ∈ pyRstrip l) : c ∈ l := by
  unfold pyRstrip at h
  rw [List.mem_reverse] at h
  have h1 := (List.dropWhile_sublist _).subset h
  rwa [List.mem_reverse] at h1

/-- Normalised candidates are fixed points of lower-casing. -/
theorem pyLower_normalizeEmail (e : Str) :
    pyLower (normalizeEmail e) = normalizeEmail e := by
  apply map_eq_self_of_forall
  intro c hc
  have h1 : c ∈ pyLower e := mem_pyStrip_subset (mem_pyRstrip_subset hc)
  rcases List.mem_map.mp h1 with ⟨c0, _, rfl⟩
  exact toLower_idem c0

/-- On a scanner match, `strip` and `rstrip` remove nothing and lower-casing
preserves the decomposition. -/
theorem normalizeEmail_decomp {m : Str} (h : EmailShape m) :
    ∃ lp dp, normalizeEmail m = lp ++ '@' :: dp ∧ lp ≠ [] ∧
      (∀ c ∈ lp, isLocalChar c = true) ∧ dp ≠ [] := by
  rcases h with ⟨lp, dp, rfl, hlpne, hlp, hdpne, hdp, cl, hcl, hca⟩
  refine ⟨pyLower lp, pyLower dp, ?_, by simpa [pyLower] using hlpne,
    ?_, by simpa [pyLower] using hdpne⟩
  · have hlow : pyLower (lp ++ '@' :: dp) = pyLower lp ++ '@' :: pyLower dp := by
      simp [pyLower, toLower_at]
    unfold normalizeEmail
    rw [hlow]
    have hstrip : pyStrip (pyLower lp ++ '@' :: pyLower dp) =
        pyLower lp ++ '@' :: pyLower dp := by
      apply pyStrip_eq_self
      intro c hcm
      rcases List.mem_append.mp hcm with h1 | h1
      · rcases List.mem_map.mp h1 with ⟨c0, hc0, rfl⟩
        exact localChar_not_ws _ (toLower_localChar c0 (hlp c0 hc0))
      · rcases List.mem_cons.mp h1 with rfl | h1
        · decide
        · rcases List.mem_map.mp h1 with ⟨c0, hc0, rfl⟩
          exact domChar_not_ws _ (toLower_domChar c0 (hdp c0 hc0))
    rw [hstrip]
    apply pyRstrip_eq_self
    intro c hcl2
    have hdpne2 : pyLower dp ≠ [] := by simpa [pyLower] using hdpne
    rw [getLast?_append_of_ne_nil _ _ (by simp : ('@' :: pyLower dp : Str) ≠ []),
      show ('@' :: pyLower dp : Str) = ['@'] ++ pyLower dp from rfl,
      getLast?_append_of_ne_nil _ _ hdpne2, pyLower, List.getLast?_map, hcl] at hcl2
    injection hcl2 with hcl2
    subst hcl2
    exact alpha_not_rstripChar _ (toLower_alpha _ hca)
  · intro c hcm
    rcases List.mem_map.mp hcm with ⟨c0, hc0, rfl⟩
    exact toLower_localChar c0 (hlp c0 hc0)

/-- The local part (text before the first `@`) of a normalised scanner match
consists of local-class characters only. -/
theorem normalizeEmail_localPart {m : Str} (h : EmailShape m) :
    ∀ c ∈ (normalizeEmail m).takeWhile (· ≠ '@'), isLocalChar c = true := by
  rcases normalizeEmail_decomp h with ⟨lp, dp, heq, hlpne, hlp, hdpne⟩
  rw [heq, takeWhile_append_cons]
  · exact hlp
  · intro x hx
    simpa using localChar_ne_at x (hlp x hx)
  · simp

/-! ## Invariants of the `_clean_emails` loop -/

theorem cleanEmailsAux_mem {bd : Option Str} {raw seen : List Str} {x : Str}
    (h : x ∈ cleanEmailsAux bd raw seen) :
    (∃ e ∈ raw, x = normalizeEmail e) ∧ excludedEmail x = false ∧
      isValidEmail x = true := by
  induction raw generalizing seen with
  | nil => simp [cleanEmailsAux] at h
  | cons e rest ih =>
    simp only [cleanEmailsAux] at h
    split at h
    · rcases ih h with ⟨⟨e0, he0, hx⟩, hrest⟩
      exact ⟨⟨e0, List.mem_cons_of_mem _ he0, hx⟩, hrest⟩
    · split at h
      · rcases ih h with ⟨⟨e0, he0, hx⟩, hrest⟩
        exact ⟨⟨e0, List.mem_cons_of_mem _ he0, hx⟩, hrest⟩
      · split at h
        · rcases ih h with ⟨⟨e0, he0, hx⟩, hrest⟩
          exact ⟨⟨e0, List.mem_cons_of_mem _ he0, hx⟩, hrest⟩
        · next h1 h2 h3 =>
          rcases List.mem_cons.mp h with rfl | h'
          · refine ⟨⟨e, List.mem_cons_self _ _, rfl⟩, ?_, ?_⟩
            · revert h2; cases excludedEmail (normalizeEmail e) <;> simp
            · revert h3; cases isValidEmail (normalizeEmail e) <;> simp
          · rcases ih h' with ⟨⟨e0, he0, hx⟩, hrest⟩
            exact ⟨⟨e0, List.mem_cons_of_mem _ he0, hx⟩, hrest⟩

theorem cleanEmailsAux_nodup {bd : Option Str} (raw : List Str) :
    ∀ seen, (cleanEmailsAux bd raw seen).Nodup ∧
      ∀ x ∈ cleanEmailsAux bd raw seen, x ∉ seen := by
  induction raw with
  | nil => intro seen; simp [cleanEmailsAux]
  | cons e rest ih =>
    intro seen
    simp only [cleanEmailsAux]
    split
    · next h1 =>
      exact ⟨(ih seen).1, fun x hx => (ih seen).2 x hx⟩
    · split
      · exact ⟨(ih seen).1, fun x hx => (ih seen).2 x hx⟩
      · split
        · exact ⟨(ih seen).1, fun x hx => (ih seen).2 x hx⟩
        · next h1 h2 h3 =>
          constructor
          · refine List.nodup_cons.mpr ⟨?_, (ih _).1⟩
            intro hmem
            exact (ih (normalizeEmail e :: seen)).2 _ hmem (List.mem_cons_self _ _)
          · intro x hx
            rcases List.mem_cons.mp hx with rfl | hx'
            · exact h1
            · intro hxs
              exact (ih (normalizeEmail e :: seen)).2 x hx' (List.mem_cons_of_mem _ hxs)

theorem cleanEmailsAux_sublist {bd : Option Str} (raw : List Str) :
    ∀ seen, List.Sublist (cleanEmailsAux bd raw seen) (raw.map normalizeEmail) := by
  induction raw with
  | nil => intro seen; simp [cleanEmailsAux]
  | cons e rest ih =>
    intro seen
    simp only [cleanEmailsAux, List.map_cons]
    split
    · exact (ih seen).cons _
    · split
      · exact (ih seen).cons _
      · split
        · exact (ih seen).cons _
        · exact (ih _).cons₂ _

theorem cleanEmailsAux_complete {bd : Option Str} {raw : List Str} {x : Str} :
    ∀ {seen}, x ∉ seen → (∃ e ∈ raw, normalizeEmail e = x) →
      excludedEmail x = false → isValidEmail x = true →
      x ∈ cleanEmailsAux bd raw seen := by
  induction raw with
  | nil => intro seen _ hex _ _; simp at hex
  | cons e rest ih =>
    intro seen hseen hex hexc hval
    simp only [cleanEmailsAux]
    by_cases he : normalizeEmail e = x
    · rw [he, if_neg hseen, if_neg (by simp [hexc]), if_neg (by simp [hval])]
      exact List.mem_cons_self _ _
    · have hex' : ∃ e0 ∈ rest, normalizeEmail e0 = x := by
        rcases hex with ⟨e0, he0, hx⟩
        rcases List.mem_cons.mp he0 with rfl | he0'
        · exact absurd hx he
        · exact ⟨e0, he0', hx⟩
      split
      · exact ih hseen hex' hexc hval
      · split
        · exact ih hseen hex' hexc hval
        · split
          · exact ih hseen hex' hexc hval
          · refine List.mem_cons_of_mem _ (ih ?_ hex' hexc hval)
            intro hx
            rcases List.mem_cons.mp hx with h' | h'
            · exact he h'.symm
            · exact hseen h'

theorem cleanEmailsAux_bd_irrelevant (bd1 bd2 : Option Str) (raw : List Str) :
    ∀ seen, cleanEmailsAux bd1 raw seen = cleanEmailsAux bd2 raw seen := by
  induction raw with
  | nil => intro seen; rfl
  | cons e rest ih =>
    intro seen
    simp only [cleanEmailsAux]
    split
    · exact ih seen
    · split
      · exact ih seen
      · split
        · exact ih seen
        · rw [ih]

/-! ## `_prioritize_emails` lemmas -/

theorem prioritizeEmails_perm (l : List Str) :
    List.Perm (prioritizeEmails l) l :=
  List.filter_append_perm _ l

theorem mem_prioritizeEmails {l : List Str} {x : Str} :
    x ∈ prioritizeEmails l ↔ x ∈ l :=
  (prioritizeEmails_perm l).mem_iff

theorem pyDedupAux_subset {l seen : List Str} {x : Str} (h : x ∈ pyDedupAux l seen) :
    x ∈ l := by
  induction l generalizing seen with
  | nil => simp [pyDedupAux] at h
  | cons a rest ih =>
    simp only [pyDedupAux] at h
    split at h
    · exact List.mem_cons_of_mem _ (ih h)
    · rcases List.mem_cons.mp h with rfl | h'
      · exact List.mem_cons_self _ _
      · exact List.mem_cons_of_mem _ (ih h')

theorem pyDedup_subset {l : List Str} {x : Str} (h : x ∈ pyDedup l) : x ∈ l :=
  pyDedupAux_subset h

/-! ## Helper: membership in the extractor's output -/

theorem mem_extractEmails {parse : Str → Doc} {order : List Str → List Str}
    {bd : Option Str} {html : Option Str} {x : Str}
    (h : x ∈ extractEmails parse order bd html) :
    ∃ s, html = some s ∧ s.isEmpty = false ∧
      x ∈ cleanEmailsAux bd (order (pyDedup (candidatesOf (parse s)))) [] := by
  cases html with
  | none => simp [extractEmails] at h
  | some s =>
    simp only [extractEmails] at h
    split at h
    · simp at h
    · next hs =>
      exact ⟨s, rfl, by revert hs; cases s.isEmpty <;> simp,
        (mem_prioritizeEmails (l := cleanEmailsAux bd _ [])).mp h⟩

/-- C9: on falsy input — `None` or the empty string — `extract_emails`
returns `[]` (lines 61–62). The model is a total function into lists, so no
exception can escape on any other input either: every branch of the pipeline
yields a list, with the empty list as the degenerate outcome. -/
theorem C9_empty_input (parse : Str → Doc) (order : List Str → List Str)
    (bd : Option Str) :
    extractEmails parse order bd none = [] ∧
    extractEmails parse order bd (some (str "")) = [] := by
  constructor
  · rfl
  · rfl

/-- C10: noninterference of the site URL. Whatever base URLs two extractors
were constructed with, `extract_emails` returns the same list on the same
markup: the domain-relevance value is computed (line 135) but both branches
`pass`, so the Base Site Identity cannot influence membership or order. -/
theorem C10_noninterference (parse : Str → Doc) (order : List Str → List Str)
    (url1 url2 : Option Str) (html : Option Str) :
    extractEmails parse order (initBaseDomain url1) html =
      extractEmails parse order (initBaseDomain url2) html := by
  cases html with
  | none => rfl
  | some s =>
    simp only [extractEmails]
    split
    · rfl
    · unfold cleanEmails
      rw [cleanEmailsAux_bd_irrelevant (initBaseDomain url1) (initBaseDomain url2)]

/-- C2: case-insensitive uniqueness of the result. Any two elements of the
output differ even after lower-casing: every output element is already the
lower-cased normalised form (line 117) and the `seen` set (lines 113, 123,
140) makes them pairwise distinct. Stated for an arbitrary parsing function
and an arbitrary set-iteration order, hence for every markup input. -/
theorem C2_dedup_invariant (parse : Str → Doc) (order : List Str → List Str)
    (bd : Option Str) (html : Option Str) :
    List.Pairwise (fun a b => pyLower a ≠ pyLower b)
      (extractEmails parse order bd html) := by
  cases html with
  | none => simp [extractEmails]
  | some s =>
    simp only [extractEmails]
    split
    · simp
    · apply (List.Perm.pairwise_iff (fun h he => h he.symm)
        (prioritizeEmails_perm _)).mpr
      apply List.Pairwise.imp_of_mem ?_ ((cleanEmailsAux_nodup _ []).1 : _)
      intro a b ha hb hne
      rcases (cleanEmailsAux_mem ha).1 with ⟨ea, _, rfl⟩
      rcases (cleanEmailsAux_mem hb).1 with ⟨eb, _, rfl⟩
      rw [pyLower_normalizeEmail, pyLower_normalizeEmail]
      exact hne

/-- C3: the deny-list invariant. No element of the output contains any of the
fourteen `EXCLUDE_PATTERNS` entries as a substring — the filter at line 127
drops any normalised candidate containing one. -/
theorem C3_denylist_invariant (parse : Str → Doc) (order : List Str → List Str)
    (bd : Option Str) (html : Option Str) (x p : Str)
    (hx : x ∈ extractEmails parse order bd html) (hp : p ∈ EXCLUDE_PATTERNS) :
    ¬ (p <:+: x) := by
  rcases mem_extractEmails hx with ⟨s, _, _, hmem⟩
  have hexc := (cleanEmailsAux_mem hmem).2.1
  have := List.any_eq_false.mp hexc p hp
  simpa using this

/-- Witness for C3 at a concrete page: the pipeline keeps
`contact@acme.co`, and the theorem yields that no deny-list entry —
`noreply` taken here — occurs inside it. -/
theorem C3_denylist_invariant_witness :
    str "contact@acme.co" ∈
      extractEmails (fun s => ⟨s, []⟩) (fun l => l) none
        (some (str "write to contact@acme.co")) ∧
    str "noreply" ∈ EXCLUDE_PATTERNS ∧
    ¬ (str "noreply" <:+: str "contact@acme.co") :=
  ⟨by decide, by decide,
    C3_denylist_invariant (fun s => ⟨s, []⟩) (fun l => l) none
      (some (str "write to contact@acme.co")) _ _ (by decide) (by decide)⟩

/-! ## Structural facts recorded by `_is_valid_email` -/

theorem isValidEmail_spec {e : Str} (h : isValidEmail e = true) :
    5 ≤ e.length ∧ e.count '@' = 1 ∧ e.takeWhile (· ≠ '@') ≠ [] ∧
      (e.dropWhile (· ≠ '@')).drop 1 ≠ [] ∧ '.' ∈ (e.dropWhile (· ≠ '@')).drop 1 := by
  simp only [isValidEmail] at h
  split at h
  · simp at h
  · next h5 =>
    split at h
    · simp at h
    · next hcount =>
      split at h
      · simp at h
      · next hne =>
        split at h
        · simp at h
        · next hdot =>
          simp only [Bool.or_eq_true, List.isEmpty_iff] at hne
          push_neg at hne
          refine ⟨by omega, by omega, hne.1, hne.2, by
            by_contra hx; exact hdot hx⟩

/-- C4: the structural invariant of the output. Every element of
`extract_emails`' result has length at least 5, exactly one `@`, a非-empty
local part of characters from `[a-zA-Z0-9._%+-]`, and a non-empty domain
containing a `.` — the validator (lines 147–167) enforces all but the
character-class fact, which holds because every candidate is a regex match
(`EMAIL_PATTERN` admits only those characters left of `@`) and the
normalisation of lines 117–120 is the identity on a match apart from
lower-casing. `order` ranges over the legitimate enumerations of the set. -/
theorem C4_structural_invariant (parse : Str → Doc) (order : List Str → List Str)
    (bd : Option Str) (html : Option Str) (x : Str)
    (hord : ∀ l, List.Perm (order l) (pyDedup l))
    (hx : x ∈ extractEmails parse order bd html) :
    5 ≤ x.length ∧ x.count '@' = 1 ∧
      x.takeWhile (· ≠ '@') ≠ [] ∧
      (∀ c ∈ x.takeWhile (· ≠ '@'), isLocalChar c = true) ∧
      (x.dropWhile (· ≠ '@')).drop 1 ≠ [] ∧
      '.' ∈ (x.dropWhile (· ≠ '@')).drop 1 := by
  rcases mem_extractEmails hx with ⟨s, _, _, hmem⟩
  rcases cleanEmailsAux_mem hmem with ⟨⟨e, he, rfl⟩, _, hval⟩
  have he1 := (hord (pyDedup (candidatesOf (parse s)))).mem_iff.mp he
  have hshape : EmailShape e :=
    candidatesOf_shape (pyDedup_subset (pyDedup_subset he1))
  rcases isValidEmail_spec hval with ⟨h5, hc, hlp, hdp, hdot⟩
  exact ⟨h5, hc, hlp, normalizeEmail_localPart hshape, hdp, hdot⟩

/-- Witness for C4: the concrete extraction on a one-address page, with the
identity-on-deduplicated-lists enumeration, satisfies every structural
clause at `jane.doe@acme.org`. -/
theorem C4_structural_invariant_witness :
    (str "jane.doe@acme.org" ∈
      extractEmails (fun s => ⟨s, []⟩) pyDedup none
        (some (str "reach jane.doe@acme.org for sales"))) ∧
    5 ≤ (str "jane.doe@acme.org").length ∧
      (str "jane.doe@acme.org").count '@' = 1 ∧
      (str "jane.doe@acme.org").takeWhile (· ≠ '@') ≠ [] ∧
      (∀ c ∈ (str "jane.doe@acme.org").takeWhile (· ≠ '@'), isLocalChar c = true) ∧
      ((str "jane.doe@acme.org").dropWhile (· ≠ '@')).drop 1 ≠ [] ∧
      '.' ∈ ((str "jane.doe@acme.org").dropWhile (· ≠ '@')).drop 1 :=
  ⟨by decide,
    C4_structural_invariant (fun s => ⟨s, []⟩) pyDedup none
      (some (str "reach jane.doe@acme.org for sales")) (str "jane.doe@acme.org")
      (fun l => List.Perm.refl _) (by decide)⟩

/-- C5: domain relevance does not gate inclusion. A raw candidate of the
scanned set whose normalised form passes the deny-list and the structural
validator lands in the output even when `_is_domain_related` answers
`false` for it — the conditional at lines 134–138 does nothing. -/
theorem C5_relevance_not_gating (parse : Str → Doc) (order : List Str → List Str)
    (bd : Option Str) (s e : Str)
    (hs : s.isEmpty = false)
    (he : e ∈ order (pyDedup (candidatesOf (parse s))))
    (hexc : excludedEmail (normalizeEmail e) = false)
    (hval : isValidEmail (normalizeEmail e) = true)
    (_hrel : isDomainRelated bd (normalizeEmail e) = false) :
    normalizeEmail e ∈ extractEmails parse order bd (some s) := by
  simp only [extractEmails]
  rw [if_neg (by simp [hs])]
  exact mem_prioritizeEmails.mpr
    (cleanEmailsAux_complete (by simp) ⟨e, he, rfl⟩ hexc hval)

/-- Witness for C5: with base domain `zzz.qq`, the address `a@x.co` is
domain-unrelated yet still extracted. -/
theorem C5_relevance_not_gating_witness :
    isDomainRelated (some (str "zzz.qq")) (normalizeEmail (str "a@x.co")) = false ∧
    normalizeEmail (str "a@x.co") ∈
      extractEmails (fun s => ⟨s, []⟩) (fun l => l) (some (str "zzz.qq"))
        (some (str "mail a@x.co")) :=
  ⟨by decide,
    C5_relevance_not_gating (fun s => ⟨s, []⟩) (fun l => l) (some (str "zzz.qq"))
      (str "mail a@x.co") (str "a@x.co") (by decide) (by decide) (by decide)
      (by decide) (by decide)⟩

/-- C1 (amended): the ranking invariant that does hold. The output splits as
priority-class elements followed by other-class elements, and each class,
in order, is a subsequence of the normalised candidates *in set-iteration
order* (the `order` applied to the deduplicated matches) — not in
first-occurrence order, which the pass through the Python `set`
(lines 86–98) does not preserve. -/
theorem C1_priority_ranking (parse : Str → Doc) (order : List Str → List Str)
    (bd : Option Str) (s : Str) :
    ∃ pre post, extractEmails parse order bd (some s) = pre ++ post ∧
      (∀ x ∈ pre, isPriorityEmail x = true) ∧
      (∀ x ∈ post, isPriorityEmail x = false) ∧
      List.Sublist pre
        ((order (pyDedup (candidatesOf (parse s)))).map normalizeEmail) ∧
      List.Sublist post
        ((order (pyDedup (candidatesOf (parse s)))).map normalizeEmail) := by
  simp only [extractEmails]
  split
  · exact ⟨[], [], rfl, by simp, by simp, List.nil_sublist _, List.nil_sublist _⟩
  · refine ⟨(cleanEmailsAux bd (order (pyDedup (candidatesOf (parse s)))) []).filter
        isPriorityEmail,
      (cleanEmailsAux bd (order (pyDedup (candidatesOf (parse s)))) []).filter
        (fun e => !isPriorityEmail e),
      rfl, ?_, ?_, ?_, ?_⟩
    · intro x hx; exact (List.mem_filter.mp hx).2
    · intro x hx
      have := (List.mem_filter.mp hx).2
      revert this; cases isPriorityEmail x <;> simp
    · exact (List.filter_sublist _).trans (cleanEmailsAux_sublist _ [])
    · exact (List.filter_sublist _).trans (cleanEmailsAux_sublist _ [])

/-- Counterexample to C1 as stated: the page text scans to the candidates
`b@x.co`, `a@x.co` in that first-occurrence order; both are other-class; the
enumeration that lists the set in reverse is legitimate (it is a permutation
of the deduplicated candidates), yet the output is then
`[a@x.co, b@x.co]` — the within-class order does not match first-occurrence
order. -/
theorem C1_counterexample :
    candidatesOf (Doc.mk (str "b@x.co a@x.co") []) =
      [str "b@x.co", str "a@x.co"] ∧
    List.Perm
      ((pyDedup (pyDedup (candidatesOf (Doc.mk (str "b@x.co a@x.co") [])))).reverse)
      (pyDedup (pyDedup (candidatesOf (Doc.mk (str "b@x.co a@x.co") [])))) ∧
    isPriorityEmail (str "a@x.co") = false ∧
    isPriorityEmail (str "b@x.co") = false ∧
    extractEmails (fun _ => Doc.mk (str "b@x.co a@x.co") [])
      (fun l => (pyDedup l).reverse) none (some (str "page")) =
      [str "a@x.co", str "b@x.co"] ∧
    [str "a@x.co", str "b@x.co"] ≠ [str "b@x.co", str "a@x.co"] := by
  refine ⟨by decide, by decide, by decide, by decide, by decide, by decide⟩

/-! ## C7: the Base Site Identity -/

/-- The claim's reading of `www.`-stripping: remove only a *leading*
`www.` label. -/
def stripLeadingWww (l : Str) : Str :=
  if (str "www.").isPrefixOf l then l.drop 4 else l

/-- Counterexample to C7 as stated: for a URL whose host has `www.` in a
non-leading position, the constructor removes that occurrence too
(`replace('www.','')` at line 47 is global), so the Base Site Identity is
`mail.example.com`, not the claimed host-with-only-leading-`www.`-stripped
`mail.www.example.com` (nor any registrable-domain value). -/
theorem C7_counterexample :
    initBaseDomain (some (str "http://mail.www.example.com")) =
      some (str "mail.example.com") ∧
    (pyUrlNetloc (str "http://mail.www.example.com")).map stripLeadingWww =
      some (str "mail.www.example.com") ∧
    some (str "mail.example.com") ≠ some (str "mail.www.example.com") :=
  ⟨by decide, by decide, by decide⟩

/-- C7 (amended): when a truthy site URL is given and `urlparse` accepts it,
the Base Site Identity is the URL's network location — the netloc after
`urlsplit`'s preprocessing — with **every** occurrence of the substring
`www.` removed (equivalently, the netloc split on `www.` and
re-concatenated); when the URL is absent or empty, or `urlparse` raises
(mismatched `[`/`]` in the host, or an invalid bracketed host), the
constructor's `except` leaves the Base Site Identity absent. -/
theorem C7_base_identity (u : Str) :
    initBaseDomain (some u) =
      (if u.isEmpty then none
       else (pyUrlNetloc u).map fun netloc => (splitWww netloc).flatten) ∧
    initBaseDomain none = none := by
  refine ⟨?_, rfl⟩
  simp only [initBaseDomain]
  split
  · rfl
  · rcases h : pyUrlNetloc u with _ | netloc <;>
      simp [h, stripWwwAll_eq_flatten_splitWww]

/-! ## C6: the domain-relevance scorer -/

theorem pySplit_ne_nil (sep : Char) (l : Str) : pySplit sep l ≠ [] := by
  induction l with
  | nil => simp [pySplit]
  | cons c rest ih =>
    simp only [pySplit]
    split
    · simp
    · split <;> simp

theorem drop_pred2 {α : Type} {l : List α} {b1 b2 : α} {t : List α}
    (h : l.reverse = b1 :: b2 :: t) :
    2 ≤ l.length ∧ l.drop (l.length - 2) = [b2, b1] := by
  have hl : l = t.reverse ++ [b2, b1] := by
    have := congrArg List.reverse h
    simpa using this
  subst hl
  constructor
  · simp
  · rw [show (t.reverse ++ [b2, b1]).length - 2 = t.reverse.length by simp]
    exact List.drop_left _ _

theorem len_from_rev {α : Type} {l r : List α} (h : l.reverse = r) :
    l.length = r.length := by
  rw [← List.length_reverse, h]

/-- The last-two-labels agreement, read off the reversed lists. -/
def lastTwoAgree {α : Type} [DecidableEq α] (l1 l2 : List α) : Bool :=
  match l1.reverse, l2.reverse with
  | b1 :: b2 :: _, e1 :: e2 :: _ => (decide (b1 = e1) && decide (b2 = e2))
  | _, _ => false

/-- Python's `xs[-2:] == ys[-2:]` comparison (under the two length guards),
re-read off the reversed lists. -/
theorem lastTwo_decide {α : Type} [DecidableEq α] (l1 l2 : List α) :
    decide (2 ≤ l1.length ∧ 2 ≤ l2.length ∧
      l1.drop (l1.length - 2) = l2.drop (l2.length - 2)) = lastTwoAgree l1 l2 := by
  unfold lastTwoAgree
  rcases h1 : l1.reverse with _ | ⟨b1, _ | ⟨b2, t1⟩⟩ <;>
    rcases h2 : l2.reverse with _ | ⟨e1, _ | ⟨e2, t2⟩⟩
  all_goals try (
    apply decide_eq_false
    rintro ⟨ha, hb, -⟩
    rw [len_from_rev h1] at ha
    rw [len_from_rev h2] at hb
    simp at ha hb)
  obtain ⟨hlen1, hdrop1⟩ := drop_pred2 h1
  obtain ⟨hlen2, hdrop2⟩ := drop_pred2 h2
  have hp : (2 ≤ l1.length ∧ 2 ≤ l2.length ∧
      l1.drop (l1.length - 2) = l2.drop (l2.length - 2)) ↔ (b1 = e1 ∧ b2 = e2) := by
    rw [hdrop1, hdrop2]
    constructor
    · rintro ⟨-, -, heq⟩
      simp at heq
      exact ⟨heq.2, heq.1⟩
    · rintro ⟨hb, he⟩
      exact ⟨hlen1, hlen2, by rw [hb, he]⟩
  rw [decide_eq_decide.mpr hp]
  · simp
  · infer_instance

/-- The relevance predicate exactly as claim C6 words it: the address's
domain with only a *leading* `www.` stripped equals the base; or the (raw)
domain ends with `.` + base; or the last two dot-separated labels of the two
domains agree. No `@` means no domain: `false`. -/
def claimDomainRelated (base email : Str) : Bool :=
  match (pySplit '@' email).drop 1 with
  | [] => false
  | d :: _ =>
    stripLeadingWww d = base ||
    List.isSuffixOf ('.' :: base) d ||
    (decide (2 ≤ (pySplit '.' base).length) &&
     decide (2 ≤ (pySplit '.' d).length) &&
     decide ((pySplit '.' base).drop ((pySplit '.' base).length - 2) =
             (pySplit '.' d).drop ((pySplit '.' d).length - 2)))

/-- Counterexample to C6 as stated: with Base Site Identity `a.co`, the code
answers `true` for `x@a.www.co` — `replace('www.','')` (line 175) deletes
the *interior* `www.`, making the stripped domain equal to the base — while
the claim's conditions (leading-strip equality, dot-suffix, last-two-labels
on the domain) all fail. -/
theorem C6_counterexample :
    isDomainRelated (some (str "a.co")) (str "x@a.www.co") = true ∧
    claimDomainRelated (str "a.co") (str "x@a.www.co") = false :=
  ⟨by decide, by decide⟩

/-- The scorer as the amended claim words it: every occurrence of `www.` is
removed from the domain (split on `www.` and re-concatenated) before the
three comparisons, the label comparison also using that stripped domain;
an empty Base Site Identity is as vacuous as an absent one. -/
def relatedAmended (base email : Str) : Bool :=
  if base.isEmpty then true
  else
    match pySplit '@' email with
    | _ :: d :: _ =>
      ((splitWww d).flatten = base) ||
      List.isSuffixOf ('.' :: base) ((splitWww d).flatten) ||
      lastTwoAgree (pySplit '.' base) (pySplit '.' ((splitWww d).flatten))
    | _ => false

/-- C6 (amended): `_is_domain_related` behaves exactly as `relatedAmended`
describes, and is vacuously `true` without a Base Site Identity. The model
is a total Boolean function: the only Python exception on this path (the
`IndexError` for an address without `@`) is caught and yields `false`
(the `[] => false` branch via the catchall case of `relatedAmended`). -/
theorem C6_domain_relatedness (b e : Str) :
    isDomainRelated (some b) e = relatedAmended b e ∧
    isDomainRelated none e = true := by
  refine ⟨?_, rfl⟩
  simp only [isDomainRelated, relatedAmended]
  by_cases hb : b.isEmpty
  · simp [hb]
  · rw [if_neg hb, if_neg hb]
    rcases hsp : pySplit '@' e with _ | ⟨h0, t⟩
    · exact absurd hsp (pySplit_ne_nil _ _)
    · rcases t with _ | ⟨d, t2⟩
      · simp
      · simp only [List.drop_succ_cons, List.drop_zero]
        rw [stripWwwAll_eq_flatten_splitWww]
        by_cases h1 : (splitWww d).flatten = b
        · simp [h1]
        · by_cases h2 : List.isSuffixOf ('.' :: b) ((splitWww d).flatten) = true
          · simp [h1, h2]
          · have h2f : List.isSuffixOf ('.' :: b) ((splitWww d).flatten) = false := by
              revert h2; cases List.isSuffixOf ('.' :: b) ((splitWww d).flatten) <;> simp
            rw [if_neg h1, if_neg (by simp [h2f])]
            have hdec : ∀ (P : Prop) [Decidable P],
                (if P then true else false) = decide P := by
              intro P hP
              by_cases hp : P <;> simp [hp]
            rw [hdec, lastTwo_decide]
            simp only [h1, h2f, decide_False, Bool.false_or]

/-! ## C8: gathering of attribute-sourced candidates -/

/-- The gathering exactly as claim C8 words it: from **every** element, the
`mailto:` link target with the scheme prefix stripped (once), and every
string-valued attribute whose name contains `mail` case-insensitively whose
value contains `@`. -/
def claimEmailAttributes (elems : List Elem) : List Str :=
  elems.flatMap fun t =>
    (match getAttr t (str "href") with
     | some (.s h) => if (str "mailto:").isPrefixOf h then [h.drop 7] else []
     | _ => []) ++
    t.attrs.filterMap fun a =>
      if decide (str "mail" <:+: pyLower a.1) then
        match a.2 with
        | .s v => if '@' ∈ v then some v else none
        | .many _ => none
      else none

/-- Counterexample to C8 as stated: a `td` element carrying
`data-email="a@b.co"` contributes nothing, because `find_all` at line 72
only visits `a`, `span`, `div` and `p` elements — while the claim's
every-element reading would collect the address. -/
theorem C8_counterexample :
    emailAttributesOf [⟨str "td", [(str "data-email", .s (str "a@b.co"))]⟩] = [] ∧
    claimEmailAttributes [⟨str "td", [(str "data-email", .s (str "a@b.co"))]⟩] =
      [str "a@b.co"] ∧
    ([] : List Str) ≠ [str "a@b.co"] :=
  ⟨by decide, by decide, by decide⟩

theorem mem_elemEmailAttrs {t : Elem} {x : Str} :
    x ∈ elemEmailAttrs t ↔
    ((∃ h, getAttr t (str "href") = some (.s h) ∧
        (str "mailto:").isPrefixOf h = true ∧ x = pyStrip (stripMailtoAll h)) ∨
     (∃ a, a ∈ t.attrs ∧
        (decide (str "email" <:+: pyLower a.1) ||
         decide (str "mail" <:+: pyLower a.1)) = true ∧
        ∃ v, a.2 = AttrVal.s v ∧ '@' ∈ v ∧ x = v)) := by
  unfold elemEmailAttrs
  rw [List.mem_append, List.mem_filterMap]
  apply or_congr
  · rcases hg : getAttr t (str "href") with _ | v
    · simp [hg]
    · rcases v with v | vs
      · by_cases hp : (str "mailto:").isPrefixOf v = true
        · simp only [hg, if_pos hp, List.mem_singleton]
          constructor
          · intro hx
            exact ⟨v, rfl, hp, hx⟩
          · rintro ⟨h2, hh2, -, hx⟩
            have hv : v = h2 := by
              simp only [Option.some.injEq, AttrVal.s.injEq] at hh2
              exact hh2
            rw [hv]
            exact hx
        · simp only [hg, if_neg hp]
          constructor
          · intro hx
            simp at hx
          · rintro ⟨h2, hh2, hp2, -⟩
            have hv : v = h2 := by
              simp only [Option.some.injEq, AttrVal.s.injEq] at hh2
              exact hh2
            subst hv
            exact absurd hp2 hp
      · simp only [hg]
        constructor
        · intro hx
          simp at hx
        · rintro ⟨h2, hh2, -, -⟩
          simp at hh2
  · apply exists_congr
    intro a
    by_cases hmem : a ∈ t.attrs
    · simp only [hmem, true_and]
      by_cases hc : (decide (str "email" <:+: pyLower a.1) ||
          decide (str "mail" <:+: pyLower a.1)) = true
      · rw [if_pos hc]
        rcases hv : a.2 with v | vs
        · by_cases ha : '@' ∈ v
          · simp [ha, hc, eq_comm]
          · simp [ha, hc]
        · simp [hc]
      · rw [if_neg hc]
        simp [hc]
    · simp [hmem]

/-- C8 (amended): the attribute-sourced candidates are gathered from every
element *whose tag is `a`, `span`, `div` or `p`*: the `mailto:` href target
(collected with every `mailto:` occurrence removed and surrounding
whitespace stripped — `replace`/`strip` at line 75), and the value of any
string-valued attribute whose name contains `mail` (hence also `email`,
line 80) when that value contains `@`. -/
theorem C8_attr_gathering (elems : List Elem) (x : Str) :
    x ∈ emailAttributesOf elems ↔
    ∃ t, t ∈ elems ∧ isScannedTag t = true ∧
      ((∃ h, getAttr t (str "href") = some (.s h) ∧
          (str "mailto:").isPrefixOf h = true ∧ x = pyStrip (stripMailtoAll h)) ∨
       (∃ a, a ∈ t.attrs ∧
          (decide (str "email" <:+: pyLower a.1) ||
           decide (str "mail" <:+: pyLower a.1)) = true ∧
          ∃ v, a.2 = AttrVal.s v ∧ '@' ∈ v ∧ x = v)) := by
  unfold emailAttributesOf
  rw [List.mem_flatMap]
  constructor
  · rintro ⟨t, ht, hx⟩
    by_cases hs : isScannedTag t = true
    · rw [if_pos hs] at hx
      exact ⟨t, ht, hs, mem_elemEmailAttrs.mp hx⟩
    · rw [if_neg hs] at hx
      simp at hx
  · rintro ⟨t, ht, hs, hx⟩
    exact ⟨t, ht, by rw [if_pos hs]; exact mem_elemEmailAttrs.mpr hx⟩

end CompanyEmail
